import Mathlib

/-!
Verification of the traffic data codec and sync state machine of
`src/traffic/traffic_info.cpp` (organicmaps).

The shallow embedding translates the source into executable Lean
definitions.  Byte buffers are `List Nat` (each entry a `uint8` value),
bit streams are `List Bool` in the order produced by the library
`BitWriter` (least significant bit of each byte first).  Fallible
decoding returns `Option`.

Library primitives used by the source but not present under `src/`
(`coding/varint.hpp`, `coding/bit_streams.hpp`, `coding/elias_coder.hpp`,
`coding/zlib.hpp`) are modelled from the spec; each such definition
carries a doc comment starting `Modelled from the spec:`.
-/

namespace traffic

/-! ## Bits and bytes -/

/-- Modelled from the spec: the `n` least significant bits of `r`, least
significant first.  This is the order in which `coding/bit_streams.hpp`
(not under `src/`) packs bits into bytes. -/
def natBits : Nat → Nat → List Bool
  | 0, _ => []
  | n + 1, r => decide (r % 2 = 1) :: natBits n (r / 2)

/-- Value of a bit list, least significant bit first. -/
def bitsVal : List Bool → Nat
  | [] => 0
  | b :: bs => (if b then 1 else 0) + 2 * bitsVal bs

/-- The eight bits of one byte, least significant first. -/
def byteBits (b : Nat) : List Bool := natBits 8 b

/-- All bits of a byte sequence, in stream order. -/
def bytesBits (bs : List Nat) : List Bool := (bs.map byteBits).flatten

/-- Modelled from the spec: the state-passing core of the library
`BitWriter` (`coding/bit_streams.hpp`, not under `src/`).  `buf` holds
`cnt` pending bits (`cnt < 8`); a completed byte is emitted at once and
the final partial byte is flushed zero-padded, as the destructor does. -/
def packAux : List Bool → Nat → Nat → List Nat
  | [], buf, cnt => if cnt = 0 then [] else [buf]
  | b :: bs, buf, cnt =>
    let buf' := buf + (if b then 2 ^ cnt else 0)
    if cnt = 7 then buf' :: packAux bs 0 0 else packAux bs buf' (cnt + 1)

/-- Bytes produced by a `BitWriter` fed the given bits. -/
def packBits (bs : List Bool) : List Nat := packAux bs 0 0

/-! ## Variable-length integers -/

/-- Modelled from the spec: `WriteVarUint` of `coding/varint.hpp`
(not under `src/`) — standard LEB128, seven value bits per byte, low
group first, continuation bit `0x80`.  Structural recursion via fuel so
that concrete values kernel-reduce; `writeVarUint` supplies ample fuel. -/
def writeVarUintFuel : Nat → Nat → List Nat
  | 0, n => [n % 128]
  | fuel + 1, n => if n < 128 then [n] else (n % 128 + 128) :: writeVarUintFuel fuel (n / 128)

/-- LEB128 encoding of a natural number. -/
def writeVarUint (n : Nat) : List Nat := writeVarUintFuel n n

/-- Modelled from the spec: `ReadVarUint` of `coding/varint.hpp`
(not under `src/`); fails when the terminating byte is missing. -/
def readVarUint : List Nat → Option (Nat × List Nat)
  | [] => none
  | b :: bs =>
    if b < 128 then some (b, bs)
    else (readVarUint bs).map fun p => (b % 128 + 128 * p.1, p.2)

/-- `ReadPrimitiveFromSource` at `uint8_t`: one byte, failing on empty input. -/
def readByte : List Nat → Option (Nat × List Nat)
  | [] => none
  | b :: bs => some (b, bs)

/-! ## Elias gamma coding -/

/-- Structural binary logarithm with fuel (so that concrete values
kernel-reduce); `nlog2` supplies ample fuel. -/
def log2Fuel : Nat → Nat → Nat
  | 0, _ => 0
  | fuel + 1, n => if n < 2 then 0 else log2Fuel fuel (n / 2) + 1

/-- Floor of the binary logarithm. -/
def nlog2 (n : Nat) : Nat := log2Fuel n n

/-- Modelled from the spec: `coding::GammaCoder::Encode`
(`coding/elias_coder.hpp`, not under `src/`) — a universal prefix-free,
self-delimiting code for positive integers: for `v ≥ 1` with
`v = 2 ^ n + r`, `r < 2 ^ n`, emit `n` zeros, a one, then the `n` low
bits of `r`. -/
def gammaEncode (v : Nat) : List Bool :=
  List.replicate (nlog2 v) false ++ true :: natBits (nlog2 v) (v - 2 ^ nlog2 v)

/-- Count leading zeros up to the first one; fails when the input ends
before a one is seen. -/
def readUnary : List Bool → Option (Nat × List Bool)
  | [] => none
  | true :: bs => some (0, bs)
  | false :: bs => (readUnary bs).map fun p => (p.1 + 1, p.2)

/-- Read `n` bits (least significant first) as a number; fails when the
input is exhausted. -/
def readBitsLSB : Nat → List Bool → Option (Nat × List Bool)
  | 0, bs => some (0, bs)
  | _ + 1, [] => none
  | n + 1, b :: bs =>
    (readBitsLSB n bs).map fun p => ((if b then 1 else 0) + 2 * p.1, p.2)

/-- Modelled from the spec: `coding::GammaCoder::Decode`, the exact
inverse of `gammaEncode`. -/
def gammaDecode (bs : List Bool) : Option (Nat × List Bool) :=
  (readUnary bs).bind fun p =>
    (readBitsLSB p.1 p.2).map fun q => (2 ^ p.1 + q.1, q.2)

/-! ## Lemmas about the primitives -/

theorem natBits_length (n r : Nat) : (natBits n r).length = n := by
  induction n generalizing r with
  | zero => rfl
  | succ n ih => simp [natBits, ih]

theorem natBits_zero (n : Nat) : natBits n 0 = List.replicate n false := by
  induction n with
  | zero => rfl
  | succ n ih => simp [natBits, List.replicate_succ, ih]

theorem bitsVal_natBits_of_lt {n r : Nat} (h : r < 2 ^ n) :
    bitsVal (natBits n r) = r := by
  induction n generalizing r with
  | zero => simp [natBits, bitsVal]; omega
  | succ n ih =>
    have h2 : 2 ^ (n + 1) = 2 * 2 ^ n := by ring
    have hr : r / 2 < 2 ^ n := by omega
    simp only [natBits, bitsVal, ih hr]
    rcases Nat.mod_two_eq_zero_or_one r with hm | hm <;> simp [hm] <;> omega

theorem natBits_bitsVal_pad (l : List Bool) (n : Nat) (h : l.length ≤ n) :
    natBits n (bitsVal l) = l ++ List.replicate (n - l.length) false := by
  induction l generalizing n with
  | nil => simpa [bitsVal] using natBits_zero n
  | cons b bs ih =>
    cases n with
    | zero => simp at h
    | succ n =>
      simp only [natBits, bitsVal]
      have hb : ((if b then 1 else 0) + 2 * bitsVal bs) % 2 = if b then 1 else 0 := by
        cases b <;> simp
      have hd : ((if b then 1 else 0) + 2 * bitsVal bs) / 2 = bitsVal bs := by
        cases b <;> simp <;> omega
      simp only [hb, hd, ih n (by simpa using h)]
      cases b <;> simp [Nat.succ_sub_succ]

theorem natBits_eight (buf cnt : Nat) (hc : cnt ≤ 8) (hb : buf < 2 ^ cnt) :
    natBits 8 buf = natBits cnt buf ++ List.replicate (8 - cnt) false := by
  have h1 : (natBits cnt buf).length = cnt := natBits_length cnt buf
  have := natBits_bitsVal_pad (natBits cnt buf) 8 (by omega)
  rwa [bitsVal_natBits_of_lt hb, h1] at this

theorem bitsVal_snoc (l : List Bool) (x : Bool) :
    bitsVal (l ++ [x]) = bitsVal l + (if x then 2 ^ l.length else 0) := by
  induction l with
  | nil => cases x <;> simp [bitsVal]
  | cons b bs ih =>
    simp only [List.cons_append, bitsVal, List.length_cons, List.append_eq]
    rw [ih]
    cases b <;> cases x <;> simp <;> ring

theorem natBits_snoc (n buf : Nat) (x : Bool) (hb : buf < 2 ^ n) :
    natBits (n + 1) (buf + (if x then 2 ^ n else 0)) = natBits n buf ++ [x] := by
  have hlen : (natBits n buf ++ [x]).length = n + 1 := by simp [natBits_length]
  have hval : bitsVal (natBits n buf ++ [x]) = buf + (if x then 2 ^ n else 0) := by
    rw [bitsVal_snoc, bitsVal_natBits_of_lt hb, natBits_length]
  have := natBits_bitsVal_pad (natBits n buf ++ [x]) (n + 1) (le_of_eq hlen)
  rw [hval, hlen] at this
  simpa using this

theorem bytesBits_nil : bytesBits [] = [] := rfl

theorem bytesBits_cons (b : Nat) (bs : List Nat) :
    bytesBits (b :: bs) = byteBits b ++ bytesBits bs := by
  simp [bytesBits]

theorem bytesBits_append (l₁ l₂ : List Nat) :
    bytesBits (l₁ ++ l₂) = bytesBits l₁ ++ bytesBits l₂ := by
  simp [bytesBits]

theorem packAux_spec (bs : List Bool) : ∀ buf cnt, cnt < 8 → buf < 2 ^ cnt →
    bytesBits (packAux bs buf cnt) =
      natBits cnt buf ++ bs ++ List.replicate ((8 - (cnt + bs.length) % 8) % 8) false := by
  induction bs with
  | nil =>
    intro buf cnt hc hb
    by_cases h0 : cnt = 0
    · subst h0
      simp [packAux, natBits, bytesBits]
    · have hcnt : cnt % 8 = cnt := Nat.mod_eq_of_lt hc
      have hpad : (8 - (cnt + ([] : List Bool).length) % 8) % 8 = 8 - cnt := by
        simp only [List.length_nil]
        omega
      simp only [packAux, if_neg h0, hpad]
      rw [bytesBits_cons, bytesBits_nil, List.append_nil]
      simpa [byteBits] using natBits_eight buf cnt (by omega) hb
  | cons b bs ih =>
    intro buf cnt hc hb
    by_cases h7 : cnt = 7
    · subst h7
      have hunf : packAux (b :: bs) buf 7 =
          (buf + if b then 2 ^ 7 else 0) :: packAux bs 0 0 := by
        simp [packAux]
      rw [hunf, bytesBits_cons, ih 0 0 (by omega) (by simp)]
      have hsnoc : byteBits (buf + (if b then 2 ^ 7 else 0)) = natBits 7 buf ++ [b] :=
        natBits_snoc 7 buf b hb
      have hpad : (8 - (0 + bs.length) % 8) % 8 = (8 - (7 + (b :: bs).length) % 8) % 8 := by
        simp only [List.length_cons]
        omega
      rw [hsnoc, hpad]
      simp [natBits]
    · have hc' : cnt + 1 < 8 := by omega
      have hb' : buf + (if b then 2 ^ cnt else 0) < 2 ^ (cnt + 1) := by
        have : 2 ^ (cnt + 1) = 2 * 2 ^ cnt := by ring
        cases b <;> simp <;> omega
      have hunf : packAux (b :: bs) buf cnt =
          packAux bs (buf + if b then 2 ^ cnt else 0) (cnt + 1) := by
        simp [packAux, h7]
      rw [hunf, ih _ _ hc' hb', natBits_snoc cnt buf b hb]
      have hpad : (8 - (cnt + 1 + bs.length) % 8) % 8 =
          (8 - (cnt + (b :: bs).length) % 8) % 8 := by
        simp only [List.length_cons]
        omega
      simp [hpad]

theorem bytesBits_packBits (bs : List Bool) :
    bytesBits (packBits bs) = bs ++ List.replicate ((8 - bs.length % 8) % 8) false := by
  have := packAux_spec bs 0 0 (by omega) (by simp)
  simpa [packBits, natBits] using this

theorem pad_lt_eight (n : Nat) : (8 - n % 8) % 8 < 8 := Nat.mod_lt _ (by omega)

/-! ## Roundtrip lemmas for the primitive readers -/

theorem readVarUintFuel_roundtrip (fuel : Nat) : ∀ n, n ≤ fuel → ∀ t : List Nat,
    readVarUint (writeVarUintFuel fuel n ++ t) = some (n, t) := by
  induction fuel with
  | zero =>
    intro n h t
    have : n = 0 := by omega
    subst this
    simp [writeVarUintFuel, readVarUint]
  | succ fuel ih =>
    intro n h t
    by_cases hn : n < 128
    · simp [writeVarUintFuel, if_pos hn, readVarUint, hn]
    · have hdiv : n / 128 ≤ fuel := by omega
      simp only [writeVarUintFuel, if_neg hn, List.cons_append, readVarUint]
      rw [if_neg (by omega), ih (n / 128) hdiv]
      simp only [Option.map_some']
      congr 2
      omega

theorem readVarUint_writeVarUint (n : Nat) (t : List Nat) :
    readVarUint (writeVarUint n ++ t) = some (n, t) :=
  readVarUintFuel_roundtrip n n le_rfl t

theorem readUnary_roundtrip (n : Nat) (rest : List Bool) :
    readUnary (List.replicate n false ++ true :: rest) = some (n, rest) := by
  induction n with
  | zero => simp [readUnary]
  | succ n ih => simp [List.replicate_succ, readUnary, ih]

theorem readBitsLSB_natBits {n r : Nat} (h : r < 2 ^ n) (t : List Bool) :
    readBitsLSB n (natBits n r ++ t) = some (r, t) := by
  induction n generalizing r with
  | zero =>
    have : r = 0 := by simpa using h
    subst this
    simp [natBits, readBitsLSB]
  | succ n ih =>
    have h2 : 2 ^ (n + 1) = 2 * 2 ^ n := by ring
    have hr : r / 2 < 2 ^ n := by omega
    have hv : (if decide (r % 2 = 1) = true then 1 else 0) + 2 * (r / 2) = r := by
      rcases Nat.mod_two_eq_zero_or_one r with hm | hm <;> simp [hm] <;> omega
    simp only [natBits, List.cons_append, List.append_eq, readBitsLSB, ih hr,
      Option.map_some', hv]

theorem log2Fuel_spec (fuel : Nat) : ∀ n, 1 ≤ n → n ≤ fuel →
    2 ^ log2Fuel fuel n ≤ n ∧ n < 2 ^ (log2Fuel fuel n + 1) := by
  induction fuel with
  | zero => intro n h1 h2; omega
  | succ fuel ih =>
    intro n h1 h2
    by_cases hn : n < 2
    · have : n = 1 := by omega
      subst this
      simp [log2Fuel]
    · have hdiv1 : 1 ≤ n / 2 := by omega
      have hdiv2 : n / 2 ≤ fuel := by omega
      obtain ⟨hlo, hhi⟩ := ih (n / 2) hdiv1 hdiv2
      simp only [log2Fuel, if_neg hn]
      constructor
      · have e1 : 2 ^ (log2Fuel fuel (n / 2) + 1) = 2 * 2 ^ log2Fuel fuel (n / 2) := by
          ring
        omega
      · have e1 : 2 ^ (log2Fuel fuel (n / 2) + 1 + 1) =
            2 * 2 ^ (log2Fuel fuel (n / 2) + 1) := by
          ring
        omega

theorem nlog2_spec {v : Nat} (h : 1 ≤ v) :
    2 ^ nlog2 v ≤ v ∧ v < 2 ^ (nlog2 v + 1) :=
  log2Fuel_spec v v h le_rfl

theorem gammaDecode_gammaEncode {v : Nat} (h : 1 ≤ v) (t : List Bool) :
    gammaDecode (gammaEncode v ++ t) = some (v, t) := by
  obtain ⟨hlo, hhi⟩ := nlog2_spec h
  have hr : v - 2 ^ nlog2 v < 2 ^ nlog2 v := by
    have h2 : 2 ^ (nlog2 v + 1) = 2 * 2 ^ nlog2 v := by ring
    omega
  have he : 2 ^ nlog2 v + (v - 2 ^ nlog2 v) = v := by omega
  simp only [gammaEncode, gammaDecode, List.append_assoc, List.cons_append,
    readUnary_roundtrip, Option.some_bind, readBitsLSB_natBits hr, Option.map_some', he]

/-! ## Extension lemmas: a successful parse is unchanged by appended input -/

theorem readByte_extend {l r : List Nat} {v : Nat} (h : readByte l = some (v, r))
    (t : List Nat) : readByte (l ++ t) = some (v, r ++ t) := by
  cases l with
  | nil => simp [readByte] at h
  | cons b bs =>
    simp only [readByte] at h ⊢
    cases h
    simp

theorem readVarUint_extend {l r : List Nat} {v : Nat} (h : readVarUint l = some (v, r))
    (t : List Nat) : readVarUint (l ++ t) = some (v, r ++ t) := by
  induction l generalizing v with
  | nil => simp [readVarUint] at h
  | cons b bs ih =>
    simp only [readVarUint, List.cons_append, List.append_eq] at h ⊢
    by_cases hb : b < 128
    · simp only [if_pos hb] at h ⊢
      cases h
      simp
    · simp only [if_neg hb] at h ⊢
      cases hv : readVarUint bs with
      | none => rw [hv] at h; simp at h
      | some p =>
        obtain ⟨w, rest⟩ := p
        rw [hv] at h
        simp only [Option.map_some'] at h
        cases h
        rw [ih hv]
        simp

theorem readUnary_extend {l r : List Bool} {v : Nat} (h : readUnary l = some (v, r))
    (t : List Bool) : readUnary (l ++ t) = some (v, r ++ t) := by
  induction l generalizing v with
  | nil => simp [readUnary] at h
  | cons b bs ih =>
    cases b with
    | true =>
      simp only [readUnary] at h ⊢
      cases h
      simp
    | false =>
      simp only [readUnary, List.cons_append, List.append_eq] at h ⊢
      cases hv : readUnary bs with
      | none => rw [hv] at h; simp at h
      | some p =>
        obtain ⟨w, rest⟩ := p
        rw [hv] at h
        simp only [Option.map_some'] at h
        cases h
        rw [ih hv]
        simp

theorem readBitsLSB_extend {n : Nat} {l r : List Bool} {v : Nat}
    (h : readBitsLSB n l = some (v, r)) (t : List Bool) :
    readBitsLSB n (l ++ t) = some (v, r ++ t) := by
  induction n generalizing l v with
  | zero =>
    simp only [readBitsLSB] at h ⊢
    cases h
    simp
  | succ n ih =>
    cases l with
    | nil => simp [readBitsLSB] at h
    | cons b bs =>
      simp only [readBitsLSB, List.cons_append, List.append_eq] at h ⊢
      cases hv : readBitsLSB n bs with
      | none => rw [hv] at h; simp at h
      | some p =>
        obtain ⟨w, rest⟩ := p
        rw [hv] at h
        simp only [Option.map_some'] at h
        cases h
        rw [ih hv]
        simp

theorem gammaDecode_extend {l r : List Bool} {v : Nat} (h : gammaDecode l = some (v, r))
    (t : List Bool) : gammaDecode (l ++ t) = some (v, r ++ t) := by
  simp only [gammaDecode] at h ⊢
  cases hu : readUnary l with
  | none => rw [hu] at h; simp at h
  | some p =>
    obtain ⟨n, bs⟩ := p
    rw [hu] at h
    rw [readUnary_extend hu t]
    simp only [Option.some_bind] at h ⊢
    cases hb : readBitsLSB n bs with
    | none => rw [hb] at h; simp at h
    | some q =>
      obtain ⟨m, bs2⟩ := q
      rw [hb] at h
      simp only [Option.map_some'] at h
      cases h
      rw [readBitsLSB_extend hb t]
      simp

/-! ## RoadSegmentId and the traffic-keys codec

Embedding of `TrafficInfo::SerializeTrafficKeys` and
`TrafficInfo::DeserializeTrafficKeys` (`src/traffic/traffic_info.cpp`,
lines 213 - 320).  The integer fields are `Nat` values carrying the
C++ widths explicitly: `m_fid` is a `uint32`, `m_idx` a `uint16`,
`m_dir` a `uint8`, and the decoder applies the same truncations the
C++ types impose. -/

/-- `TrafficInfo::RoadSegmentId`: feature id, index of the start point
of the segment, direction. -/
structure RoadSegmentId where
  m_fid : Nat
  m_idx : Nat
  m_dir : Nat
deriving DecidableEq

/-- Modelled from the spec: `RoadSegmentId::kForwardDirection` is
declared in the header (not under `src/`); the decoder emits direction
`0` first and `DebugPrint` prints direction `kForwardDirection` as
Forward, with Forward ordered before Backward. -/
def RoadSegmentId.kForwardDirection : Nat := 0

/-- Modelled from the spec: `RoadSegmentId::kReverseDirection`, the
Backward direction, numerically `1`. -/
def RoadSegmentId.kReverseDirection : Nat := 1

/-- `kLatestKeysVersion` (`traffic_info.cpp:93`). -/
def kLatestKeysVersion : Nat := 0

/-- `kLatestValuesVersion` (`traffic_info.cpp:94`). -/
def kLatestValuesVersion : Nat := 0

/-- `uint32` subtraction `a - b` as C++ computes it. -/
def sub32 (a b : Nat) : Nat := (a % 2 ^ 32 + (2 ^ 32 - b % 2 ^ 32)) % 2 ^ 32

/-- One entry of the parallel vectors `fids` / `numSegs` / `oneWay`
built by the run loop of `SerializeTrafficKeys`: the run's feature id,
`numSegsForThisFid` (run length divided by the direction count, with
C++ truncating division), and the one-way flag. -/
def mkRun (fid cnt : Nat) (rev : Bool) : Nat × Nat × Bool :=
  (fid, cnt / (if rev then 2 else 1), !rev)

/-- The two-pointer run-collection loop of `SerializeTrafficKeys`
(lines 218 - 245), written with the current run as an accumulator:
`fid` is the run's feature id, `cnt` the entries seen so far, `rev`
whether a `kReverseDirection` entry was seen in the run. -/
def runsOfAux (fid cnt : Nat) (rev : Bool) : List RoadSegmentId → List (Nat × Nat × Bool)
  | [] => [mkRun fid cnt rev]
  | k :: ks =>
    if k.m_fid = fid then
      runsOfAux fid (cnt + 1) (rev || decide (k.m_dir = RoadSegmentId.kReverseDirection)) ks
    else
      mkRun fid cnt rev ::
        runsOfAux k.m_fid 1 (decide (k.m_dir = RoadSegmentId.kReverseDirection)) ks

/-- All maximal same-fid runs of a key list, in order. -/
def runsOf : List RoadSegmentId → List (Nat × Nat × Bool)
  | [] => []
  | k :: ks => runsOfAux k.m_fid 1 (decide (k.m_dir = RoadSegmentId.kReverseDirection)) ks

/-- The delta-coded feature-id stream (lines 254 - 261): each run's
`fidDiff = fid - prevFid` (`uint32` subtraction), gamma-coded as
`fidDiff + 1`. -/
def fidDeltaBits (prev : Nat) : List Nat → List Bool
  | [] => []
  | f :: fs => gammaEncode (sub32 f prev + 1) ++ fidDeltaBits f fs

/-- The segment-count stream (lines 263 - 267): each count gamma-coded
as `s + 1`. -/
def segCountBits (ss : List Nat) : List Bool :=
  (ss.map fun s => gammaEncode (s + 1)).flatten

/-- `TrafficInfo::SerializeTrafficKeys` (lines 213 - 272): version
byte, run count as varint, then the three bit-packed streams. -/
def SerializeTrafficKeys (keys : List RoadSegmentId) : List Nat :=
  kLatestKeysVersion ::
    (writeVarUint (runsOf keys).length ++
      packBits (fidDeltaBits 0 ((runsOf keys).map fun r => r.1) ++
        segCountBits ((runsOf keys).map fun r => r.2.1) ++
        (runsOf keys).map fun r => r.2.2))

/-- The fid-decoding loop (lines 290 - 295): running prefix sum
`prevFid += Decode(bitReader) - 1`, truncated to `uint32`. -/
def readFids : Nat → Nat → List Bool → Option (List Nat × List Bool)
  | 0, _, bs => some ([], bs)
  | n + 1, prev, bs =>
    (gammaDecode bs).bind fun p =>
      (readFids n ((prev + (p.1 - 1)) % 2 ^ 32) p.2).map fun q =>
        ((prev + (p.1 - 1)) % 2 ^ 32 :: q.1, q.2)

/-- The segment-count decoding loop (lines 297 - 298):
`numSegs[i] = Decode(bitReader) - 1`. -/
def readSegCounts : Nat → List Bool → Option (List Nat × List Bool)
  | 0, bs => some ([], bs)
  | n + 1, bs =>
    (gammaDecode bs).bind fun p =>
      (readSegCounts n p.2).map fun q => ((p.1 - 1) :: q.1, q.2)

/-- The one-way flag decoding loop (lines 300 - 301):
`oneWay[i] = bitReader.Read(1) > 0`. -/
def readOneWayBits : Nat → List Bool → Option (List Bool × List Bool)
  | 0, bs => some ([], bs)
  | n + 1, bs =>
    (readBitsLSB 1 bs).bind fun p =>
      (readOneWayBits n p.2).map fun q => (decide (p.1 > 0) :: q.1, q.2)

/-- The reconstruction loops of `DeserializeTrafficKeys`
(lines 306 - 319): for each run emit point indices `0 .. numSegs-1`
(truncated to `uint16` by the `RoadSegmentId` constructor), each with
`1` or `2` direction entries. -/
def buildKeys (runs : List (Nat × Nat × Bool)) : List RoadSegmentId :=
  runs.flatMap fun r =>
    (List.range r.2.1).flatMap fun j =>
      (List.range (if r.2.2 then 1 else 2)).map fun dir =>
        RoadSegmentId.mk r.1 (j % 2 ^ 16) dir

/-- `TrafficInfo::DeserializeTrafficKeys` (lines 275 - 320): read the
version byte (`CHECK_EQUAL` against `kLatestKeysVersion`), the run
count, the three bit streams, require the source to be fully consumed
(`ASSERT_EQUAL(src.Size(), 0, ())`, i.e. every byte pulled by the
`BitReader`), then rebuild the key list. -/
def DeserializeTrafficKeys (data : List Nat) : Option (List RoadSegmentId) :=
  (readByte data).bind fun pv =>
    if pv.1 = kLatestKeysVersion then
      (readVarUint pv.2).bind fun pn =>
        (readFids pn.1 0 (bytesBits pn.2)).bind fun pf =>
          (readSegCounts pn.1 pf.2).bind fun ps =>
            (readOneWayBits pn.1 ps.2).bind fun po =>
              if po.2.length < 8 then
                some (buildKeys (pf.1.zip (ps.1.zip po.1)))
              else none
    else none

/-! ## Canonical well-formed key lists -/

/-- The canonical block of keys of one feature: point indices
`0 .. s-1` from zero, with one direction entry for a one-way feature
and two for a two-way feature — the layout `ExtractTrafficKeys`
produces and the decoder regenerates. -/
def genRun (f s : Nat) (ow : Bool) : List RoadSegmentId :=
  (List.range s).flatMap fun j =>
    if ow then [RoadSegmentId.mk f j 0]
    else [RoadSegmentId.mk f j 0, RoadSegmentId.mk f j 1]

/-- Concatenation of canonical blocks, one per feature. -/
def genKeys (runs : List (Nat × Nat × Bool)) : List RoadSegmentId :=
  runs.flatMap fun r => genRun r.1 r.2.1 r.2.2

/-- A valid run descriptor: feature id in `uint32` range, at least one
segment, and segment count within `uint16` range. -/
abbrev ValidRun (r : Nat × Nat × Bool) : Prop :=
  r.1 < 2 ^ 32 ∧ 1 ≤ r.2.1 ∧ r.2.1 ≤ 2 ^ 16

/-- Valid run descriptors: strictly increasing feature ids, each run
valid. -/
abbrev ValidRuns (runs : List (Nat × Nat × Bool)) : Prop :=
  List.Chain' (fun a b => a.1 < b.1) runs ∧ ∀ r ∈ runs, ValidRun r

/-- A sorted well-formed key list whose per-feature point indices run
contiguously from zero: exactly the concatenation of canonical blocks
for strictly increasing feature ids. -/
def WellFormedKeys (keys : List RoadSegmentId) : Prop :=
  ∃ runs, ValidRuns runs ∧ keys = genKeys runs

/-! ## The run loop recovers the run descriptors -/

theorem genKeys_cons (r : Nat × Nat × Bool) (rest : List (Nat × Nat × Bool)) :
    genKeys (r :: rest) = genRun r.1 r.2.1 r.2.2 ++ genKeys rest := by
  simp [genKeys]

theorem sum_map_eq_length_mul {α : Type} (l : List α) (f : α → Nat) (c : Nat)
    (h : ∀ x ∈ l, f x = c) : (l.map f).sum = l.length * c := by
  induction l with
  | nil => simp
  | cons a l ih =>
    simp only [List.map_cons, List.sum_cons, List.length_cons, h a (by simp)]
    rw [ih (fun x hx => h x (by simp [hx]))]
    ring

theorem genRun_cons (f s : Nat) (ow : Bool) (hs : 1 ≤ s) :
    ∃ tail, genRun f s ow = RoadSegmentId.mk f 0 0 :: tail ∧
      (∀ x ∈ tail, x.m_fid = f) ∧
      (tail.any fun x => decide (x.m_dir = RoadSegmentId.kReverseDirection)) = !ow ∧
      1 + tail.length = s * (if ow then 1 else 2) := by
  obtain ⟨q, rfl⟩ : ∃ q, s = q + 1 := ⟨s - 1, by omega⟩
  refine ⟨(if ow then [] else [RoadSegmentId.mk f 0 1]) ++
      ((List.range q).map (· + 1)).flatMap
        (fun j => if ow then [RoadSegmentId.mk f j 0]
          else [RoadSegmentId.mk f j 0, RoadSegmentId.mk f j 1]), ?_, ?_, ?_, ?_⟩
  · rw [genRun, List.range_succ_eq_map, List.flatMap_cons]
    cases ow <;> simp
  · intro x hx
    rw [List.mem_append] at hx
    rcases hx with hx | hx
    · cases ow <;> simp at hx
      subst hx
      rfl
    · rw [List.mem_flatMap] at hx
      obtain ⟨j, _, hj⟩ := hx
      cases ow <;> simp at hj
      · rcases hj with rfl | rfl <;> rfl
      · subst hj
        rfl
  · cases ow with
    | true =>
      simp only [ite_true, List.nil_append, Bool.not_true]
      rw [List.any_eq_false.2]
      intro x hx
      rw [List.mem_flatMap] at hx
      obtain ⟨j, _, hj⟩ := hx
      simp at hj
      subst hj
      simp [RoadSegmentId.kReverseDirection]
    | false =>
      simp [RoadSegmentId.kReverseDirection]
  · rw [List.length_append, List.length_flatMap,
      sum_map_eq_length_mul _ _ (if ow then 1 else 2)
        (by intro x _; cases ow <;> simp)]
    cases ow <;> simp <;> ring

theorem runsOfAux_spec (L : List RoadSegmentId) : ∀ (f c : Nat) (rev : Bool)
    (runs : List (Nat × Nat × Bool)),
    (∀ x ∈ L, x.m_fid = f) → ValidRuns runs → (∀ r ∈ runs, r.1 ≠ f) →
    runsOfAux f c rev (L ++ genKeys runs) =
      mkRun f (c + L.length)
        (rev || L.any fun x => decide (x.m_dir = RoadSegmentId.kReverseDirection)) ::
        runsOf (genKeys runs) := by
  induction L with
  | nil =>
    intro f c rev runs _ hv hne
    cases runs with
    | nil => simp [genKeys, runsOfAux, runsOf]
    | cons r rest =>
      obtain ⟨hch, hall⟩ := hv
      have hr : ValidRun r := hall r (by simp)
      obtain ⟨tail, hdec, _, _, _⟩ := genRun_cons r.1 r.2.1 r.2.2 hr.2.1
      have hne1 : r.1 ≠ f := hne r (by simp)
      have hgen : genKeys (r :: rest) =
          RoadSegmentId.mk r.1 0 0 :: (tail ++ genKeys rest) := by
        rw [genKeys_cons, hdec, List.cons_append]
      rw [List.nil_append, hgen]
      simp only [runsOfAux, runsOf]
      rw [if_neg (by simpa using hne1)]
      simp
  | cons x L ih =>
    intro f c rev runs hL hv hne
    have hx : x.m_fid = f := hL x (by simp)
    rw [List.cons_append]
    simp only [runsOfAux]
    rw [if_pos hx, ih f (c + 1) _ runs (fun y hy => hL y (by simp [hy])) hv hne]
    have e1 : c + 1 + L.length = c + (x :: L).length := by
      simp only [List.length_cons]
      omega
    have e2 : ((rev || decide (x.m_dir = RoadSegmentId.kReverseDirection)) ||
        L.any fun y => decide (y.m_dir = RoadSegmentId.kReverseDirection)) =
        (rev || (x :: L).any fun y => decide (y.m_dir = RoadSegmentId.kReverseDirection)) := by
      simp [List.any_cons, Bool.or_assoc]
    rw [e1, e2]

theorem runsOf_genKeys : ∀ runs : List (Nat × Nat × Bool), ValidRuns runs →
    runsOf (genKeys runs) = runs := by
  intro runs h
  induction runs with
  | nil => rfl
  | cons r rest ih =>
    obtain ⟨f0, s0, ow0⟩ := r
    obtain ⟨hch, hall⟩ := h
    have hr : ValidRun (f0, s0, ow0) := hall _ (by simp)
    obtain ⟨tail, hdec, hfid, hany, hlen⟩ := genRun_cons f0 s0 ow0 hr.2.1
    have hvrest : ValidRuns rest := ⟨hch.tail, fun q hq => hall q (by simp [hq])⟩
    have hmap : List.Pairwise (· < ·) (((f0, s0, ow0) :: rest).map fun p => p.1) :=
      List.chain'_iff_pairwise.1 ((List.chain'_map _).2 hch)
    have hne : ∀ q ∈ rest, q.1 ≠ f0 := by
      intro q hq
      have h3 : f0 < q.1 := (List.pairwise_cons.1 hmap).1 q.1 (List.mem_map_of_mem _ hq)
      omega
    rw [genKeys_cons, hdec, List.cons_append]
    simp only [runsOf]
    have hdir : (decide ((RoadSegmentId.mk f0 0 0).m_dir = RoadSegmentId.kReverseDirection))
        = false := by
      simp [RoadSegmentId.kReverseDirection]
    rw [hdir, runsOfAux_spec tail f0 1 false rest hfid hvrest hne, ih hvrest]
    have hhead : mkRun f0 (1 + tail.length)
        (false || tail.any fun x => decide (x.m_dir = RoadSegmentId.kReverseDirection)) =
        (f0, s0, ow0) := by
      rw [Bool.false_or, hany, hlen, mkRun]
      cases ow0 with
      | true => simp
      | false => simp [Nat.mul_div_cancel]
    rw [hhead]

/-! ## Roundtrip of the three decoded streams -/

theorem sub32_of_le {prev f : Nat} (h1 : prev ≤ f) (h2 : f < 2 ^ 32) :
    sub32 f prev = f - prev := by
  have h32 : (2 : Nat) ^ 32 = 4294967296 := by norm_num
  rw [sub32, h32]
  omega

theorem readFids_roundtrip : ∀ (fids : List Nat) (prev : Nat) (t : List Bool),
    prev < 2 ^ 32 → (∀ f ∈ fids, prev ≤ f ∧ f < 2 ^ 32) →
    List.Pairwise (· ≤ ·) fids →
    readFids fids.length prev (fidDeltaBits prev fids ++ t) = some (fids, t) := by
  intro fids
  induction fids with
  | nil => intro prev t _ _ _; simp [readFids, fidDeltaBits]
  | cons f fs ih =>
    intro prev t hprev hall hpw
    have hf := hall f (by simp)
    simp only [fidDeltaBits, List.append_assoc, List.length_cons, readFids]
    rw [gammaDecode_gammaEncode (by omega)]
    simp only [Option.some_bind]
    have hfid : (prev + (sub32 f prev + 1 - 1)) % 2 ^ 32 = f := by
      rw [Nat.add_sub_cancel, sub32_of_le hf.1 hf.2]
      have h32 : (2 : Nat) ^ 32 = 4294967296 := by norm_num
      rw [h32]
      omega
    rw [hfid]
    have hall' : ∀ g ∈ fs, f ≤ g ∧ g < 2 ^ 32 := by
      intro g hg
      exact ⟨(List.pairwise_cons.1 hpw).1 g hg, (hall g (by simp [hg])).2⟩
    rw [ih f t hf.2 hall' (List.pairwise_cons.1 hpw).2]
    simp

theorem readSegCounts_roundtrip : ∀ (ss : List Nat) (t : List Bool),
    readSegCounts ss.length (segCountBits ss ++ t) = some (ss, t) := by
  intro ss
  induction ss with
  | nil => intro t; simp [readSegCounts, segCountBits]
  | cons s ss ih =>
    intro t
    simp only [segCountBits, List.map_cons, List.flatten_cons, List.append_assoc,
      List.length_cons, readSegCounts]
    rw [gammaDecode_gammaEncode (by omega)]
    simp only [Option.some_bind]
    have ih' := ih t
    simp only [segCountBits] at ih'
    rw [ih']
    simp

theorem readOneWayBits_roundtrip : ∀ (ows : List Bool) (t : List Bool),
    readOneWayBits ows.length (ows ++ t) = some (ows, t) := by
  intro ows
  induction ows with
  | nil => intro t; simp [readOneWayBits]
  | cons b bs ih =>
    intro t
    simp only [List.cons_append, List.append_eq, List.length_cons, readOneWayBits,
      readBitsLSB, Option.map_some', Option.some_bind]
    rw [ih t]
    cases b <;> simp

/-! ## Extension lemmas for the three decoded streams -/

theorem readFids_extend : ∀ {n prev : Nat} {l r : List Bool} {v : List Nat},
    readFids n prev l = some (v, r) → ∀ t, readFids n prev (l ++ t) = some (v, r ++ t) := by
  intro n
  induction n with
  | zero =>
    intro prev l r v h t
    simp only [readFids] at h ⊢
    cases h
    simp
  | succ n ih =>
    intro prev l r v h t
    simp only [readFids] at h ⊢
    cases hg : gammaDecode l with
    | none => rw [hg] at h; simp at h
    | some p =>
      obtain ⟨d, bs⟩ := p
      rw [hg] at h
      simp only [Option.some_bind] at h
      rw [gammaDecode_extend hg t]
      simp only [Option.some_bind]
      cases hf : readFids n ((prev + (d - 1)) % 2 ^ 32) bs with
      | none => rw [hf] at h; simp at h
      | some q =>
        obtain ⟨vs, rest⟩ := q
        rw [hf] at h
        simp only [Option.map_some'] at h
        cases h
        rw [ih hf t]
        simp

theorem readSegCounts_extend : ∀ {n : Nat} {l r : List Bool} {v : List Nat},
    readSegCounts n l = some (v, r) → ∀ t, readSegCounts n (l ++ t) = some (v, r ++ t) := by
  intro n
  induction n with
  | zero =>
    intro l r v h t
    simp only [readSegCounts] at h ⊢
    cases h
    simp
  | succ n ih =>
    intro l r v h t
    simp only [readSegCounts] at h ⊢
    cases hg : gammaDecode l with
    | none => rw [hg] at h; simp at h
    | some p =>
      obtain ⟨d, bs⟩ := p
      rw [hg] at h
      simp only [Option.some_bind] at h
      rw [gammaDecode_extend hg t]
      simp only [Option.some_bind]
      cases hf : readSegCounts n bs with
      | none => rw [hf] at h; simp at h
      | some q =>
        obtain ⟨vs, rest⟩ := q
        rw [hf] at h
        simp only [Option.map_some'] at h
        cases h
        rw [ih hf t]
        simp

theorem readOneWayBits_extend : ∀ {n : Nat} {l r : List Bool} {v : List Bool},
    readOneWayBits n l = some (v, r) → ∀ t, readOneWayBits n (l ++ t) = some (v, r ++ t) := by
  intro n
  induction n with
  | zero =>
    intro l r v h t
    simp only [readOneWayBits] at h ⊢
    cases h
    simp
  | succ n ih =>
    intro l r v h t
    simp only [readOneWayBits] at h ⊢
    cases hg : readBitsLSB 1 l with
    | none => rw [hg] at h; simp at h
    | some p =>
      obtain ⟨d, bs⟩ := p
      rw [hg] at h
      simp only [Option.some_bind] at h
      rw [readBitsLSB_extend hg t]
      simp only [Option.some_bind]
      cases hf : readOneWayBits n bs with
      | none => rw [hf] at h; simp at h
      | some q =>
        obtain ⟨vs, rest⟩ := q
        rw [hf] at h
        simp only [Option.map_some'] at h
        cases h
        rw [ih hf t]
        simp

/-! ## The decoder rebuilds the canonical key list -/

theorem buildRun_eq_genRun (f s : Nat) (ow : Bool) (hs : s ≤ 2 ^ 16) :
    ((List.range s).flatMap fun j =>
      (List.range (if ow then 1 else 2)).map fun dir =>
        RoadSegmentId.mk f (j % 2 ^ 16) dir) = genRun f s ow := by
  rw [genRun, List.flatMap, List.flatMap]
  congr 1
  apply List.map_congr_left
  intro j hj
  rw [List.mem_range] at hj
  have hmod : j % 2 ^ 16 = j := Nat.mod_eq_of_lt (by omega)
  rw [hmod]
  cases ow <;> simp [List.range_succ]

theorem zip_maps (runs : List (Nat × Nat × Bool)) :
    ((runs.map fun r => r.1).zip ((runs.map fun r => r.2.1).zip (runs.map fun r => r.2.2)))
      = runs := by
  rw [List.zip_map', List.zip_map']
  conv_rhs => rw [← List.map_id runs]
  apply List.map_congr_left
  intro r _
  rfl

theorem buildKeys_eq_genKeys : ∀ runs : List (Nat × Nat × Bool),
    (∀ r ∈ runs, r.2.1 ≤ 2 ^ 16) → buildKeys runs = genKeys runs := by
  intro runs h
  induction runs with
  | nil => rfl
  | cons r rest ih =>
    obtain ⟨f0, s0, ow0⟩ := r
    have hs : s0 ≤ 2 ^ 16 := h (f0, s0, ow0) (by simp)
    simp only [buildKeys, genKeys, List.flatMap_cons]
    have h1 := buildRun_eq_genRun f0 s0 ow0 hs
    have h2 := ih (fun q hq => h q (by simp [hq]))
    simp only [buildKeys, genKeys] at h1 h2 ⊢
    rw [h1, h2]

/-! ## Keys codec roundtrip on well-formed input -/

theorem keys_roundtrip_canonical (runs : List (Nat × Nat × Bool)) (hv : ValidRuns runs) :
    DeserializeTrafficKeys (SerializeTrafficKeys (genKeys runs)) = some (genKeys runs) := by
  obtain ⟨hch, hall⟩ := hv
  rw [SerializeTrafficKeys, runsOf_genKeys runs ⟨hch, hall⟩]
  simp only [DeserializeTrafficKeys, readByte, Option.some_bind]
  rw [if_pos trivial, readVarUint_writeVarUint]
  simp only [Option.some_bind]
  rw [bytesBits_packBits, List.append_assoc, List.append_assoc]
  have hpadlen : (List.replicate ((8 - (fidDeltaBits 0 (runs.map fun r => r.1) ++
      segCountBits (runs.map fun r => r.2.1) ++ runs.map fun r => r.2.2).length % 8) % 8)
      false).length < 8 := by
    simpa using pad_lt_eight _
  generalize hP : List.replicate ((8 - (fidDeltaBits 0 (runs.map fun r => r.1) ++
      segCountBits (runs.map fun r => r.2.1) ++ runs.map fun r => r.2.2).length % 8) % 8)
      false = pad
  rw [hP] at hpadlen
  have h1 : readFids runs.length 0 (fidDeltaBits 0 (runs.map fun r => r.1) ++
      (segCountBits (runs.map fun r => r.2.1) ++ ((runs.map fun r => r.2.2) ++ pad))) =
      some (runs.map fun r => r.1,
        segCountBits (runs.map fun r => r.2.1) ++ ((runs.map fun r => r.2.2) ++ pad)) := by
    have h0 := readFids_roundtrip (runs.map fun r => r.1) 0
      (segCountBits (runs.map fun r => r.2.1) ++ ((runs.map fun r => r.2.2) ++ pad))
      (by norm_num)
      (by
        intro f hf
        rw [List.mem_map] at hf
        obtain ⟨r, hr, rfl⟩ := hf
        exact ⟨Nat.zero_le _, (hall r hr).1⟩)
      (by
        have hp : List.Pairwise (· < ·) (runs.map fun r => r.1) :=
          List.chain'_iff_pairwise.1 ((List.chain'_map _).2 hch)
        exact hp.imp le_of_lt)
    rwa [List.length_map] at h0
  rw [h1]
  simp only [Option.some_bind]
  have h2 : readSegCounts runs.length
      (segCountBits (runs.map fun r => r.2.1) ++ ((runs.map fun r => r.2.2) ++ pad)) =
      some (runs.map fun r => r.2.1, (runs.map fun r => r.2.2) ++ pad) := by
    have h0 := readSegCounts_roundtrip (runs.map fun r => r.2.1)
      ((runs.map fun r => r.2.2) ++ pad)
    rwa [List.length_map] at h0
  rw [h2]
  simp only [Option.some_bind]
  have h3 : readOneWayBits runs.length ((runs.map fun r => r.2.2) ++ pad) =
      some (runs.map fun r => r.2.2, pad) := by
    have h0 := readOneWayBits_roundtrip (runs.map fun r => r.2.2) pad
    rwa [List.length_map] at h0
  rw [h3]
  simp only [Option.some_bind]
  rw [if_pos hpadlen, zip_maps, buildKeys_eq_genKeys runs (fun r hr => (hall r hr).2.2)]

/-- Claim C1 (amended): for every key list that is the canonical
concatenation of per-feature blocks (point indices `0 .. s-1` from zero,
one or two directions, strictly increasing `uint32` feature ids,
`uint16` segment counts), deserialization inverts serialization. -/
theorem C1_keys_roundtrip (keys : List RoadSegmentId) (h : WellFormedKeys keys) :
    DeserializeTrafficKeys (SerializeTrafficKeys keys) = some keys := by
  obtain ⟨runs, hvalid, rfl⟩ := h
  exact keys_roundtrip_canonical runs hvalid

/-! ## SpeedGroup and the traffic-values codec

Embedding of `TrafficInfo::SerializeTrafficValues` and
`TrafficInfo::DeserializeTrafficValues` (lines 323 - 369). -/

/-- Modelled from the spec: `SpeedGroup` (`traffic/speed_groups.hpp`,
not under `src/`) is a small closed `uint8` enumeration of cardinality
8 (`static_assert(numSpeedGroups <= 8)`), with sentinel `Unknown` just
below the exclusive bound `Count`.  We model a value by its `uint8`
numeral. -/
abbrev SpeedGroup := Nat

/-- The `Unknown` sentinel of `SpeedGroup`. -/
def SpeedGroup.Unknown : SpeedGroup := 7

/-- `SpeedGroup::Count`, the exclusive upper bound. -/
def SpeedGroup.Count : SpeedGroup := 8

/-- Modelled from the spec: `coding::ZLib::Deflate` (`coding/zlib.hpp`,
not under `src/`), treated as a black-box lossless compressor producing
a self-delimiting stream; modelled concretely as the input framed by
its length. -/
def Deflate (data : List Nat) : List Nat := writeVarUint data.length ++ data

/-- Modelled from the spec: `coding::ZLib::Inflate`, the exact inverse
of `Deflate`: fails unless the whole input is exactly a `Deflate`
image (a corrupted or misframed stream is a decompression error). -/
def Inflate (data : List Nat) : Option (List Nat) :=
  (readVarUint data).bind fun p => if p.2.length = p.1 then some p.2 else none

/-- `TrafficInfo::SerializeTrafficValues` (lines 323 - 344): version
byte, value count as varint, each value bit-packed in exactly 3 bits
(`CHECK_LESS(u, numSpeedGroups)` guards the encode), then the whole
buffer deflated at best compression. -/
def SerializeTrafficValues (values : List SpeedGroup) : List Nat :=
  Deflate (kLatestValuesVersion ::
    (writeVarUint values.length ++ packBits (values.flatMap fun v => natBits 3 v)))

/-- The value-reading loop of `DeserializeTrafficValues`
(lines 362 - 366): `n` three-bit codes. -/
def readValues : Nat → List Bool → Option (List SpeedGroup × List Bool)
  | 0, bs => some ([], bs)
  | n + 1, bs =>
    (readBitsLSB 3 bs).bind fun p =>
      (readValues n p.2).map fun q => (p.1 :: q.1, q.2)

/-- `TrafficInfo::DeserializeTrafficValues` (lines 347 - 369): inflate,
read version byte (`CHECK_EQUAL` against `kLatestValuesVersion`), read
the count, read `n` three-bit codes, and require the decompressed
buffer to be fully consumed (`ASSERT_EQUAL(src.Size(), 0, ())`). -/
def DeserializeTrafficValues (data : List Nat) : Option (List SpeedGroup) :=
  (Inflate data).bind fun dec =>
    (readByte dec).bind fun pv =>
      if pv.1 = kLatestValuesVersion then
        (readVarUint pv.2).bind fun pn =>
          (readValues pn.1 (bytesBits pn.2)).bind fun pr =>
            if pr.2.length < 8 then some pr.1 else none
      else none

/-! ## Values codec roundtrip -/

theorem Inflate_Deflate (data : List Nat) : Inflate (Deflate data) = some data := by
  rw [Inflate, Deflate, readVarUint_writeVarUint]
  simp

theorem readValues_roundtrip : ∀ (vs : List SpeedGroup) (t : List Bool),
    (∀ v ∈ vs, v < 8) →
    readValues vs.length ((vs.flatMap fun v => natBits 3 v) ++ t) = some (vs, t) := by
  intro vs
  induction vs with
  | nil => intro t _; simp [readValues]
  | cons v vs ih =>
    intro t hall
    have hv : v < 2 ^ 3 := hall v (by simp)
    simp only [List.flatMap_cons, List.append_assoc, List.length_cons, readValues]
    rw [readBitsLSB_natBits hv]
    simp only [Option.some_bind]
    rw [ih t (fun w hw => hall w (by simp [hw]))]
    simp

/-- Claim C2: for every sequence of SpeedGroup values each strictly
below `SpeedGroup::Count`, `DeserializeTrafficValues` inverts
`SerializeTrafficValues` (compression and decompression being the
modelled inverse pair `Deflate` / `Inflate`). -/
theorem C2_values_roundtrip (values : List SpeedGroup)
    (h : ∀ v ∈ values, v < SpeedGroup.Count) :
    DeserializeTrafficValues (SerializeTrafficValues values) = some values := by
  rw [SerializeTrafficValues, DeserializeTrafficValues, Inflate_Deflate]
  simp only [Option.some_bind, readByte]
  rw [if_pos trivial, readVarUint_writeVarUint]
  simp only [Option.some_bind]
  rw [bytesBits_packBits]
  have hpadlen : (List.replicate
      ((8 - (values.flatMap fun v => natBits 3 v).length % 8) % 8) false).length < 8 := by
    simpa using pad_lt_eight _
  rw [readValues_roundtrip values _ (fun v hv => by
    have hvc := h v hv
    rw [SpeedGroup.Count] at hvc
    exact hvc)]
  simp only [Option.some_bind]
  rw [if_pos hpadlen]

/-! ## Exactness: a successful decode consumes its input exactly -/

theorem DeserializeTrafficKeys_inv {b : List Nat} {r : List RoadSegmentId}
    (h : DeserializeTrafficKeys b = some r) :
    ∃ r1 n r2 fids bs1 ss bs2 ows bs3,
      readByte b = some (kLatestKeysVersion, r1) ∧
      readVarUint r1 = some (n, r2) ∧
      readFids n 0 (bytesBits r2) = some (fids, bs1) ∧
      readSegCounts n bs1 = some (ss, bs2) ∧
      readOneWayBits n bs2 = some (ows, bs3) ∧
      bs3.length < 8 ∧ r = buildKeys (fids.zip (ss.zip ows)) := by
  rw [DeserializeTrafficKeys] at h
  cases hb : readByte b with
  | none => rw [hb] at h; simp at h
  | some pv =>
    obtain ⟨v0, r1⟩ := pv
    rw [hb] at h
    simp only [Option.some_bind] at h
    by_cases hv : v0 = kLatestKeysVersion
    · subst hv
      rw [if_pos rfl] at h
      cases hn : readVarUint r1 with
      | none => rw [hn] at h; simp at h
      | some pn =>
        obtain ⟨n, r2⟩ := pn
        rw [hn] at h
        simp only [Option.some_bind] at h
        cases hf : readFids n 0 (bytesBits r2) with
        | none => rw [hf] at h; simp at h
        | some pf =>
          obtain ⟨fids, bs1⟩ := pf
          rw [hf] at h
          simp only [Option.some_bind] at h
          cases hs : readSegCounts n bs1 with
          | none => rw [hs] at h; simp at h
          | some ps =>
            obtain ⟨ss, bs2⟩ := ps
            rw [hs] at h
            simp only [Option.some_bind] at h
            cases ho : readOneWayBits n bs2 with
            | none => rw [ho] at h; simp at h
            | some po =>
              obtain ⟨ows, bs3⟩ := po
              rw [ho] at h
              simp only [Option.some_bind] at h
              by_cases hl : bs3.length < 8
              · rw [if_pos hl] at h
                simp only [Option.some.injEq] at h
                exact ⟨r1, n, r2, fids, bs1, ss, bs2, ows, bs3,
                  rfl, hn, hf, hs, ho, hl, h.symm⟩
              · rw [if_neg hl] at h
                simp at h
    · rw [if_neg hv] at h
      simp at h

theorem bytesBits_snoc_byte (l : List Nat) (x : Nat) :
    bytesBits (l ++ [x]) = bytesBits l ++ byteBits x := by
  rw [bytesBits_append]
  simp [bytesBits]

theorem DeserializeTrafficKeys_append {b : List Nat} {r : List RoadSegmentId}
    (h : DeserializeTrafficKeys b = some r) (x : Nat) :
    DeserializeTrafficKeys (b ++ [x]) = none := by
  obtain ⟨r1, n, r2, fids, bs1, ss, bs2, ows, bs3, hB, hV, hF, hS, hO, hL, _⟩ :=
    DeserializeTrafficKeys_inv h
  rw [DeserializeTrafficKeys, readByte_extend hB [x]]
  simp only [Option.some_bind]
  rw [if_pos trivial, readVarUint_extend hV [x]]
  simp only [Option.some_bind]
  rw [bytesBits_snoc_byte, readFids_extend hF (byteBits x)]
  simp only [Option.some_bind]
  rw [readSegCounts_extend hS (byteBits x)]
  simp only [Option.some_bind]
  rw [readOneWayBits_extend hO (byteBits x)]
  simp only [Option.some_bind]
  rw [if_neg (by
    rw [List.length_append, byteBits]
    rw [natBits_length]
    omega)]

theorem DeserializeTrafficKeys_dropLast {b : List Nat} {r : List RoadSegmentId}
    (h : DeserializeTrafficKeys b = some r) :
    DeserializeTrafficKeys b.dropLast = none := by
  have hne : b ≠ [] := by
    intro h0
    subst h0
    rw [DeserializeTrafficKeys] at h
    simp [readByte] at h
  cases hd : DeserializeTrafficKeys b.dropLast with
  | none => rfl
  | some r' =>
    exfalso
    obtain ⟨r1, n, r2, fids, bs1, ss, bs2, ows, bs3, hB, hV, hF, hS, hO, hL, _⟩ :=
      DeserializeTrafficKeys_inv h
    obtain ⟨r1', n', r2', fids', bs1', ss', bs2', ows', bs3', hB', hV', hF', hS', hO', _, _⟩ :=
      DeserializeTrafficKeys_inv hd
    have hsplit : b.dropLast ++ [b.getLast hne] = b := List.dropLast_append_getLast hne
    have e1 := readByte_extend hB' [b.getLast hne]
    rw [hsplit, hB] at e1
    simp only [Option.some.injEq, Prod.mk.injEq] at e1
    obtain ⟨-, e1⟩ := e1
    subst e1
    have e2 := readVarUint_extend hV' [b.getLast hne]
    rw [hV] at e2
    simp only [Option.some.injEq, Prod.mk.injEq] at e2
    obtain ⟨e2a, e2b⟩ := e2
    subst e2a
    subst e2b
    have e3 := readFids_extend hF' (byteBits (b.getLast hne))
    rw [← bytesBits_snoc_byte, hF] at e3
    simp only [Option.some.injEq, Prod.mk.injEq] at e3
    obtain ⟨-, e3⟩ := e3
    subst e3
    have e4 := readSegCounts_extend hS' (byteBits (b.getLast hne))
    rw [hS] at e4
    simp only [Option.some.injEq, Prod.mk.injEq] at e4
    obtain ⟨-, e4⟩ := e4
    subst e4
    have e5 := readOneWayBits_extend hO' (byteBits (b.getLast hne))
    rw [hO] at e5
    simp only [Option.some.injEq, Prod.mk.injEq] at e5
    obtain ⟨-, e5⟩ := e5
    subst e5
    rw [List.length_append, byteBits, natBits_length] at hL
    omega

theorem Inflate_inv {b d : List Nat} (h : Inflate b = some d) :
    ∃ n, readVarUint b = some (n, d) ∧ d.length = n := by
  rw [Inflate] at h
  cases hv : readVarUint b with
  | none => rw [hv] at h; simp at h
  | some p =>
    obtain ⟨n, rest⟩ := p
    rw [hv] at h
    simp only [Option.some_bind] at h
    by_cases hl : rest.length = n
    · rw [if_pos hl] at h
      simp only [Option.some.injEq] at h
      subst h
      exact ⟨n, rfl, hl⟩
    · rw [if_neg hl] at h
      simp at h

theorem Inflate_append {b d : List Nat} (h : Inflate b = some d) (x : Nat) :
    Inflate (b ++ [x]) = none := by
  obtain ⟨n, hv, hl⟩ := Inflate_inv h
  rw [Inflate, readVarUint_extend hv [x]]
  simp only [Option.some_bind]
  rw [if_neg (by simp; omega)]

theorem Inflate_dropLast {b d : List Nat} (h : Inflate b = some d) :
    Inflate b.dropLast = none := by
  have hne : b ≠ [] := by
    intro h0
    subst h0
    rw [Inflate] at h
    simp [readVarUint] at h
  cases hd : Inflate b.dropLast with
  | none => rfl
  | some d' =>
    exfalso
    obtain ⟨n, hv, hl⟩ := Inflate_inv h
    obtain ⟨n', hv', hl'⟩ := Inflate_inv hd
    have hsplit : b.dropLast ++ [b.getLast hne] = b := List.dropLast_append_getLast hne
    have e1 := readVarUint_extend hv' [b.getLast hne]
    rw [hsplit, hv] at e1
    simp only [Option.some.injEq, Prod.mk.injEq] at e1
    obtain ⟨e1a, e1b⟩ := e1
    subst e1a
    subst e1b
    rw [List.length_append] at hl
    simp at hl
    omega

theorem DeserializeTrafficValues_inflates {b : List Nat} {v : List SpeedGroup}
    (h : DeserializeTrafficValues b = some v) : ∃ d, Inflate b = some d := by
  rw [DeserializeTrafficValues] at h
  cases hi : Inflate b with
  | none => rw [hi] at h; simp at h
  | some d => exact ⟨d, rfl⟩

theorem DeserializeTrafficValues_append {b : List Nat} {v : List SpeedGroup}
    (h : DeserializeTrafficValues b = some v) (x : Nat) :
    DeserializeTrafficValues (b ++ [x]) = none := by
  obtain ⟨d, hi⟩ := DeserializeTrafficValues_inflates h
  rw [DeserializeTrafficValues, Inflate_append hi x]
  rfl

theorem DeserializeTrafficValues_dropLast {b : List Nat} {v : List SpeedGroup}
    (h : DeserializeTrafficValues b = some v) :
    DeserializeTrafficValues b.dropLast = none := by
  obtain ⟨d, hi⟩ := DeserializeTrafficValues_inflates h
  rw [DeserializeTrafficValues, Inflate_dropLast hi]
  rfl

/-! ## Coloring: the `map<RoadSegmentId, SpeedGroup>` of one mwm

`std::map` modelled as an association list with unique keys; only
`find`, `operator[]` (insert-or-assign) and `emplace` (insert-if-absent)
are used by the source. -/

/-- `TrafficInfo::Coloring`. -/
abbrev Coloring := List (RoadSegmentId × SpeedGroup)

/-- `map::find`: the stored value, if any. -/
def mapFind (m : Coloring) (k : RoadSegmentId) : Option SpeedGroup :=
  (m.find? fun p => decide (p.1 = k)).map fun p => p.2

/-- `map::operator[]` followed by assignment: overwrite if present,
append otherwise. -/
def mapInsert (m : Coloring) (k : RoadSegmentId) (v : SpeedGroup) : Coloring :=
  if m.any fun p => decide (p.1 = k) then
    m.map fun p => if p.1 = k then (k, v) else p
  else m ++ [(k, v)]

/-- `map::emplace`: insert only when the key is absent. -/
def mapEmplace (m : Coloring) (k : RoadSegmentId) (v : SpeedGroup) : Coloring :=
  if m.any fun p => decide (p.1 = k) then m else m ++ [(k, v)]

/-! ## The sync / availability state machine

Embedding of `TrafficInfo`'s fetch path (lines 138 - 152 and
372 - 508).  The HTTP transport is an external collaborator: one
`HttpResponse` value stands for the outcome of `RunHttpRequest` plus
the observable response. -/

/-- `TrafficInfo::Availability` (declared in the header; modelled from
the spec's state enumeration). -/
inductive Availability where
  | IsAvailable
  | ExpiredData
  | ExpiredApp
  | NoData
  | Unknown
deriving DecidableEq

/-- `TrafficInfo::ServerDataStatus`. -/
inductive ServerDataStatus where
  | New
  | NotChanged
  | NotFound
  | Error
deriving DecidableEq

/-- `kETag` (`traffic_info.cpp:79`): the case-sensitive response header
name used to refresh the revision token. -/
def kETag : String := "Etag"

/-- The mutable fields of one `TrafficInfo` instance that the fetch
path touches, plus the construction-time `m_currentDataVersion`. -/
structure TrafficInfoState where
  m_keys : List RoadSegmentId
  m_coloring : Coloring
  m_availability : Availability
  m_currentDataVersion : Int

/-- The observable outcome of one HTTP request: whether
`RunHttpRequest()` returned true, `ErrorCode()`, the raw body,
`strings::to_int64` of the body (string parsing is a collaborator not
under `src/`; it leaves `0` when the body is unparsable), and the
response headers. -/
structure HttpResponse where
  success : Bool
  errorCode : Int
  body : List Nat
  bodyInt : Int
  headers : List (String × String)

/-- `TrafficInfo::GetSpeedGroup` (lines 154 - 160): look the id up,
`Unknown` when absent; a `const` method, hence a pure function here. -/
def GetSpeedGroup (coloring : Coloring) (id : RoadSegmentId) : SpeedGroup :=
  match mapFind coloring id with
  | none => SpeedGroup.Unknown
  | some g => g

/-- The loop of `CombineColorings` (lines 191 - 206): for each key,
`result[key]` gets the known color when present, else `Unknown`. -/
def combineLoop (knownColors : Coloring) : List RoadSegmentId → Coloring → Coloring
  | [], result => result
  | k :: ks, result =>
    combineLoop knownColors ks
      (mapInsert result k
        (match mapFind knownColors k with
         | none => SpeedGroup.Unknown
         | some g => g))

/-- `CombineColorings` (lines 184 - 210): `result.clear()` then the
loop over `keys`. -/
def CombineColorings (keys : List RoadSegmentId) (knownColors : Coloring) : Coloring :=
  combineLoop knownColors keys []

/-- The zip loop of `UpdateTrafficData` (lines 472 - 473). -/
def emplaceAll : List RoadSegmentId → List SpeedGroup → Coloring → Coloring
  | k :: ks, v :: vs, m => emplaceAll ks vs (mapEmplace m k v)
  | _, _, m => m

/-- `TrafficInfo::UpdateTrafficData` (lines 455 - 476):
`m_coloring.clear()` first; on a key/value length mismatch log, emit
telemetry, set `NoData` and return false; otherwise emplace all pairs
and return true. -/
def UpdateTrafficData (st : TrafficInfoState) (values : List SpeedGroup) :
    Bool × TrafficInfoState :=
  if st.m_keys.length ≠ values.length then
    (false, { st with m_coloring := ([] : Coloring), m_availability := Availability.NoData })
  else
    (true, { st with m_coloring := emplaceAll st.m_keys values ([] : Coloring) })

/-- `int64_t` compared against `uint64_t` in C++ converts the signed
value to `uint64_t`; this is that conversion. -/
def uint64OfInt64 (v : Int) : Nat := (v % (2 ^ 64 : Int)).toNat

/-- `TrafficInfo::ProcessFailure` (lines 478 - 508).  On 404 the body
is parsed as `int64_t`; note `version > mwmVersion` compares `int64_t`
with `uint64_t`, so C++ converts `version` to `uint64_t` first, while
`version <= m_currentDataVersion` is a signed comparison. -/
def ProcessFailure (st : TrafficInfoState) (resp : HttpResponse) (mwmVersion : Nat) :
    ServerDataStatus × TrafficInfoState :=
  if resp.errorCode = 404 then
    if uint64OfInt64 resp.bodyInt > mwmVersion ∧ resp.bodyInt ≤ st.m_currentDataVersion then
      (ServerDataStatus.NotFound, { st with m_availability := Availability.ExpiredData })
    else if resp.bodyInt > st.m_currentDataVersion then
      (ServerDataStatus.NotFound, { st with m_availability := Availability.ExpiredApp })
    else
      (ServerDataStatus.NotFound, { st with m_availability := Availability.NoData })
  else if resp.errorCode = 304 then
    (ServerDataStatus.NotChanged, { st with m_availability := Availability.IsAvailable })
  else
    (ServerDataStatus.Error, { st with m_availability := Availability.Unknown })

/-- Result of `TrafficInfo::ReceiveTrafficValues`: the status, the
state after the call, the caller's etag after the call, and the decoded
values (empty unless the status is `New`). -/
structure FetchValuesResult where
  status : ServerDataStatus
  state : TrafficInfoState
  etag : String
  values : List SpeedGroup

/-- `TrafficInfo::ReceiveTrafficValues` (lines 408 - 453).  `hasInfo`
is whether `m_mwmId.GetInfo()` is non-null, `mwmVersion` the mwm's
edition version, `urlEmpty` whether `MakeRemoteURL` produced an empty
address (no remote base configured). -/
def ReceiveTrafficValues (st : TrafficInfoState) (hasInfo : Bool) (mwmVersion : Nat)
    (urlEmpty : Bool) (resp : HttpResponse) (etag : String) : FetchValuesResult :=
  if hasInfo = false then
    ⟨ServerDataStatus.Error, st, etag, []⟩
  else if urlEmpty = true then
    ⟨ServerDataStatus.Error, st, etag, []⟩
  else if resp.success = false ∨ resp.errorCode ≠ 200 then
    let pf := ProcessFailure st resp mwmVersion
    ⟨pf.1, pf.2, etag, []⟩
  else
    match DeserializeTrafficValues resp.body with
    | none =>
      ⟨ServerDataStatus.Error, { st with m_availability := Availability.NoData }, etag, []⟩
    | some vs =>
      let etag2 := match resp.headers.find? fun p => decide (p.1 = kETag) with
        | some p => p.2
        | none => etag
      ⟨ServerDataStatus.New, { st with m_availability := Availability.IsAvailable },
        etag2, vs⟩

/-- Result of `TrafficInfo::ReceiveTrafficKeys`. -/
structure FetchKeysResult where
  ok : Bool
  state : TrafficInfoState

/-- `TrafficInfo::ReceiveTrafficKeys` (lines 372 - 406), with
`ReadRemoteFile` (lines 41 - 64) inlined: fail when no info, when the
remote address is empty, when the request does not run, on a non-200
status, or when the received keys do not decode; only on full success
swap the new keys in. -/
def ReceiveTrafficKeys (st : TrafficInfoState) (hasInfo : Bool) (urlEmpty : Bool)
    (resp : HttpResponse) : FetchKeysResult :=
  if hasInfo = false then ⟨false, st⟩
  else if urlEmpty = true then ⟨false, st⟩
  else if resp.success = false then ⟨false, st⟩
  else if resp.errorCode ≠ 200 then ⟨false, st⟩
  else
    match DeserializeTrafficKeys resp.body with
    | none => ⟨false, st⟩
    | some ks => ⟨true, { st with m_keys := ks }⟩

/-- Result of `TrafficInfo::ReceiveTrafficData`. -/
structure SyncResult where
  ok : Bool
  state : TrafficInfoState
  etag : String

/-- `TrafficInfo::ReceiveTrafficData` (lines 138 - 152): fetch values,
then dispatch on the status. -/
def ReceiveTrafficData (st : TrafficInfoState) (hasInfo : Bool) (mwmVersion : Nat)
    (urlEmpty : Bool) (resp : HttpResponse) (etag : String) : SyncResult :=
  let r := ReceiveTrafficValues st hasInfo mwmVersion urlEmpty resp etag
  match r.status with
  | ServerDataStatus.New =>
    let u := UpdateTrafficData r.state r.values
    ⟨u.1, u.2, r.etag⟩
  | ServerDataStatus.NotChanged => ⟨true, r.state, r.etag⟩
  | ServerDataStatus.NotFound => ⟨false, r.state, r.etag⟩
  | ServerDataStatus.Error => ⟨false, r.state, r.etag⟩

/-! ## Coloring reconciliation -/

theorem mapFind_none_of_forall {m : Coloring} {k : RoadSegmentId}
    (h : ∀ p ∈ m, p.1 ≠ k) : mapFind m k = none := by
  rw [mapFind, Option.map_eq_none', List.find?_eq_none]
  intro p hp
  simpa using h p hp

theorem forall_of_mapFind_none {m : Coloring} {k : RoadSegmentId}
    (h : mapFind m k = none) : ∀ p ∈ m, p.1 ≠ k := by
  rw [mapFind, Option.map_eq_none', List.find?_eq_none] at h
  intro p hp
  simpa using h p hp

theorem mapInsert_of_absent {m : Coloring} {k : RoadSegmentId} (v : SpeedGroup)
    (h : mapFind m k = none) : mapInsert m k v = m ++ [(k, v)] := by
  rw [mapInsert, if_neg]
  rw [Bool.not_eq_true, List.any_eq_false]
  intro p hp
  simpa using forall_of_mapFind_none h p hp

theorem mapFind_append_right {m : Coloring} {k : RoadSegmentId} (l : Coloring)
    (h : mapFind m k = none) : mapFind (m ++ l) k = mapFind l k := by
  rw [mapFind, List.find?_append]
  rw [mapFind, Option.map_eq_none'] at h
  rw [h]
  rfl

theorem combineLoop_spec (known : Coloring) : ∀ (keys : List RoadSegmentId) (res : Coloring),
    keys.Nodup → (∀ k ∈ keys, mapFind res k = none) →
    combineLoop known keys res =
      res ++ keys.map fun k =>
        (k, match mapFind known k with
            | none => SpeedGroup.Unknown
            | some g => g) := by
  intro keys
  induction keys with
  | nil => intro res _ _; simp [combineLoop]
  | cons k ks ih =>
    intro res hnd hres
    have hkres : mapFind res k = none := hres k (by simp)
    rw [combineLoop, mapInsert_of_absent _ hkres]
    rw [ih]
    · simp
    · exact hnd.of_cons
    · intro j hj
      have hjk : k ≠ j := by
        intro hh
        subst hh
        exact (List.nodup_cons.1 hnd).1 hj
      rw [mapFind_append_right _ (hres j (List.mem_cons_of_mem k hj))]
      simp [mapFind, List.find?_cons, hjk]

theorem mapFind_map_mem (d : RoadSegmentId → SpeedGroup) :
    ∀ (keys : List RoadSegmentId) (k : RoadSegmentId), k ∈ keys →
    mapFind (keys.map fun j => (j, d j)) k = some (d k) := by
  intro keys
  induction keys with
  | nil => intro k hk; simp at hk
  | cons a ks ih =>
    intro k hk
    by_cases hak : a = k
    · subst hak
      rw [List.map_cons, mapFind, List.find?_cons]
      simp
    · rw [List.map_cons, mapFind, List.find?_cons]
      have : (decide ((a, d a).1 = k)) = false := by simp [hak]
      rw [this]
      have hk2 : k ∈ ks := by
        rcases List.mem_cons.1 hk with rfl | hk2
        · exact absurd rfl hak
        · exact hk2
      rw [← mapFind, ih k hk2]

theorem mapFind_map_not_mem (d : RoadSegmentId → SpeedGroup) :
    ∀ (keys : List RoadSegmentId) (k : RoadSegmentId), k ∉ keys →
    mapFind (keys.map fun j => (j, d j)) k = none := by
  intro keys
  induction keys with
  | nil => intro k _; rfl
  | cons a ks ih =>
    intro k hk
    rw [List.map_cons, mapFind, List.find?_cons]
    have hak : a ≠ k := fun hh => hk (hh ▸ List.mem_cons_self a ks)
    have : (decide ((a, d a).1 = k)) = false := by simp [hak]
    rw [this, ← mapFind]
    exact ih k (fun hh => hk (List.mem_cons_of_mem a hh))

/-! ## The claims -/

/-- The lexicographic order on `(featureId, pointIndex, direction)`. -/
abbrev rsLt (a b : RoadSegmentId) : Prop :=
  a.m_fid < b.m_fid ∨ (a.m_fid = b.m_fid ∧
    (a.m_idx < b.m_idx ∨ (a.m_idx = b.m_idx ∧ a.m_dir < b.m_dir)))

/-- The well-formedness hypothesis of claim C1 exactly as the claim
states it: sorted by the total order (hence one contiguous run per
feature id), fields within their C++ integer ranges, and per feature
either only Forward entries or both directions for every point index
present. -/
abbrev ClaimKeysWf (keys : List RoadSegmentId) : Prop :=
  List.Chain' rsLt keys ∧
  (∀ k ∈ keys, k.m_fid < 2 ^ 32 ∧ k.m_idx < 2 ^ 16 ∧ k.m_dir < 2) ∧
  ∀ k ∈ keys,
    (∀ j ∈ keys, j.m_fid = k.m_fid → j.m_dir = RoadSegmentId.kForwardDirection) ∨
    (∀ j ∈ keys, j.m_fid = k.m_fid →
      RoadSegmentId.mk k.m_fid j.m_idx RoadSegmentId.kForwardDirection ∈ keys ∧
      RoadSegmentId.mk k.m_fid j.m_idx RoadSegmentId.kReverseDirection ∈ keys)

/-- Claim C1 counterexample: the single-key list `[(5, 1, Forward)]` is
sorted and well-formed in the claim's sense (only Forward entries, one
contiguous run), yet the decoder regenerates point indices from zero,
so the roundtrip returns `[(5, 0, Forward)]`, not the original list. -/
theorem C1_counterexample :
    ClaimKeysWf [RoadSegmentId.mk 5 1 0] ∧
    DeserializeTrafficKeys (SerializeTrafficKeys [RoadSegmentId.mk 5 1 0]) =
      some [RoadSegmentId.mk 5 0 0] ∧
    some [RoadSegmentId.mk 5 0 0] ≠ some [RoadSegmentId.mk 5 1 0] :=
  ⟨⟨List.chain'_singleton _, by decide, by decide⟩, by decide, by decide⟩

/-- Claim C1 witness: the spec's one-way scenario, a three-segment
one-way feature with indices from zero, roundtrips. -/
theorem C1_witness :
    DeserializeTrafficKeys (SerializeTrafficKeys
      [RoadSegmentId.mk 5 0 0, RoadSegmentId.mk 5 1 0, RoadSegmentId.mk 5 2 0]) =
    some [RoadSegmentId.mk 5 0 0, RoadSegmentId.mk 5 1 0, RoadSegmentId.mk 5 2 0] :=
  C1_keys_roundtrip _ ⟨[(5, 3, true)], ⟨List.chain'_singleton _, by decide⟩, by decide⟩

/-- Claim C2 witness: a concrete value list below `Count` roundtrips. -/
theorem C2_witness :
    (∀ v ∈ [0, 3, 7], v < SpeedGroup.Count) ∧
    DeserializeTrafficValues (SerializeTrafficValues [0, 3, 7]) = some [0, 3, 7] :=
  ⟨by decide, C2_values_roundtrip [0, 3, 7] (by decide)⟩

/-- Claim C5: for either codec, a byte sequence that decodes
successfully stops decoding when one byte is appended or the last byte
is removed (decode consumes its input exactly). -/
theorem C5_decode_exact :
    (∀ (b : List Nat) (r : List RoadSegmentId), DeserializeTrafficKeys b = some r →
      (∀ x, DeserializeTrafficKeys (b ++ [x]) = none) ∧
      DeserializeTrafficKeys b.dropLast = none) ∧
    (∀ (b : List Nat) (v : List SpeedGroup), DeserializeTrafficValues b = some v →
      (∀ x, DeserializeTrafficValues (b ++ [x]) = none) ∧
      DeserializeTrafficValues b.dropLast = none) :=
  ⟨fun _ _ h => ⟨fun x => DeserializeTrafficKeys_append h x,
    DeserializeTrafficKeys_dropLast h⟩,
   fun _ _ h => ⟨fun x => DeserializeTrafficValues_append h x,
    DeserializeTrafficValues_dropLast h⟩⟩

/-- Claim C5 witness: the empty key list's and the empty value list's
encodings decode, and both perturbations of each are rejected. -/
theorem C5_witness :
    DeserializeTrafficKeys [0, 0] = some [] ∧
    DeserializeTrafficKeys [0, 0, 7] = none ∧
    DeserializeTrafficKeys [0] = none ∧
    DeserializeTrafficValues [2, 0, 0] = some [] ∧
    DeserializeTrafficValues [2, 0, 0, 7] = none ∧
    DeserializeTrafficValues [2, 0] = none :=
  ⟨by decide,
   (C5_decode_exact.1 [0, 0] [] (by decide)).1 7,
   (C5_decode_exact.1 [0, 0] [] (by decide)).2,
   by decide,
   (C5_decode_exact.2 [2, 0, 0] [] (by decide)).1 7,
   (C5_decode_exact.2 [2, 0, 0] [] (by decide)).2⟩

/-- A sample state for witnesses: no keys, empty coloring, availability
not yet determined, client data-format version 120. -/
def sampleState : TrafficInfoState :=
  ⟨[], [], Availability.Unknown, 120⟩

/-- Claim C3 counterexample: on a 404 whose body parses to the negative
version `-5`, with `mwmVersion = 100` and `currentDataVersion = 120`,
the claim's case analysis (`v > mwmVersion` read as a mathematical
comparison) lands in the `otherwise` branch, demanding `NoData` — but
the code compares `int64_t` against `uint64_t`, converting `-5` to
`2^64 - 5`, and yields `ExpiredData`. -/
theorem C3_counterexample :
    (ProcessFailure sampleState ⟨true, 404, [], -5, []⟩ 100).2.m_availability =
      Availability.ExpiredData ∧
    ¬((-5 : Int) > (100 : Int)) ∧ ¬((-5 : Int) > (120 : Int)) ∧
    Availability.ExpiredData ≠ Availability.NoData := by
  refine ⟨by decide, by decide, by decide, by decide⟩

/-- Claim C3 (amended): for every 404 response whose parsed body
version is nonnegative (within `int64` range, with the mwm version in
`uint64` range), the availability verdict follows the claim's
three-way case analysis and the status is `NotFound`. -/
theorem C3_process404 (st : TrafficInfoState) (resp : HttpResponse) (mwmVersion : Nat)
    (h404 : resp.errorCode = 404) (hv0 : 0 ≤ resp.bodyInt)
    (hv1 : resp.bodyInt < 2 ^ 63) (hm : mwmVersion < 2 ^ 64) :
    (ProcessFailure st resp mwmVersion).1 = ServerDataStatus.NotFound ∧
    (ProcessFailure st resp mwmVersion).2.m_availability =
      (if resp.bodyInt > (mwmVersion : Int) ∧ resp.bodyInt ≤ st.m_currentDataVersion then
        Availability.ExpiredData
      else if resp.bodyInt > st.m_currentDataVersion then Availability.ExpiredApp
      else Availability.NoData) := by
  have h64 : ((2 : Int) ^ 64) = 18446744073709551616 := by norm_num
  have h63 : ((2 : Int) ^ 63) = 9223372036854775808 := by norm_num
  have hconv : (uint64OfInt64 resp.bodyInt > mwmVersion) ↔
      resp.bodyInt > (mwmVersion : Int) := by
    rw [uint64OfInt64, Int.emod_eq_of_lt hv0 (by omega)]
    omega
  rw [ProcessFailure, if_pos h404]
  by_cases hc1 : resp.bodyInt > (mwmVersion : Int) ∧
      resp.bodyInt ≤ st.m_currentDataVersion
  · rw [if_pos ⟨hconv.2 hc1.1, hc1.2⟩, if_pos hc1]
    exact ⟨rfl, rfl⟩
  · rw [if_neg (fun hh => hc1 ⟨hconv.1 hh.1, hh.2⟩), if_neg hc1]
    by_cases hc2 : resp.bodyInt > st.m_currentDataVersion
    · rw [if_pos hc2, if_pos hc2]
      exact ⟨rfl, rfl⟩
    · rw [if_neg hc2, if_neg hc2]
      exact ⟨rfl, rfl⟩

/-- Claim C3 witness: the spec's 404 scenario — `mwmVersion = 100`,
`currentDataVersion = 120`: body `110` gives `ExpiredData`, body `130`
gives `ExpiredApp`, body `90` gives `NoData`, `NotFound` each time. -/
theorem C3_witness :
    (ProcessFailure sampleState ⟨true, 404, [], 110, []⟩ 100).1 =
      ServerDataStatus.NotFound ∧
    (ProcessFailure sampleState ⟨true, 404, [], 110, []⟩ 100).2.m_availability =
      Availability.ExpiredData ∧
    (ProcessFailure sampleState ⟨true, 404, [], 130, []⟩ 100).2.m_availability =
      Availability.ExpiredApp ∧
    (ProcessFailure sampleState ⟨true, 404, [], 90, []⟩ 100).2.m_availability =
      Availability.NoData := by
  have h1 := C3_process404 sampleState ⟨true, 404, [], 110, []⟩ 100 rfl
    (by norm_num) (by norm_num) (by norm_num)
  have h2 := C3_process404 sampleState ⟨true, 404, [], 130, []⟩ 100 rfl
    (by norm_num) (by norm_num) (by norm_num)
  have h3 := C3_process404 sampleState ⟨true, 404, [], 90, []⟩ 100 rfl
    (by norm_num) (by norm_num) (by norm_num)
  refine ⟨h1.1, ?_, ?_, ?_⟩
  · rw [h1.2]
    decide
  · rw [h2.2]
    decide
  · rw [h3.2]
    decide

/-- A sample state with three keys and a nonempty coloring. -/
def sampleState3 : TrafficInfoState :=
  ⟨[RoadSegmentId.mk 1 0 0, RoadSegmentId.mk 1 1 0, RoadSegmentId.mk 2 0 0],
    [(RoadSegmentId.mk 1 0 0, 3)], Availability.IsAvailable, 120⟩

/-- Claim C4 counterexample: on a 3-keys / 2-values mismatch the call
does fail with `NoData` and builds no coloring — but the previously
held coloring is not left unchanged: `m_coloring.clear()` runs before
the length check, so the prior coloring is discarded. -/
theorem C4_counterexample :
    (UpdateTrafficData sampleState3 [1, 2]).1 = false ∧
    (UpdateTrafficData sampleState3 [1, 2]).2.m_availability = Availability.NoData ∧
    (UpdateTrafficData sampleState3 [1, 2]).2.m_coloring = [] ∧
    (UpdateTrafficData sampleState3 [1, 2]).2.m_coloring ≠ sampleState3.m_coloring := by
  refine ⟨by decide, by decide, by decide, by decide⟩

/-- Claim C4 (amended): on a key/value length mismatch,
`UpdateTrafficData` returns false, sets availability to `NoData`,
builds no coloring — the coloring is left cleared (empty), never a
partial zip of the new values — and leaves the key list unchanged. -/
theorem C4_update_mismatch (st : TrafficInfoState) (values : List SpeedGroup)
    (h : st.m_keys.length ≠ values.length) :
    (UpdateTrafficData st values).1 = false ∧
    (UpdateTrafficData st values).2.m_availability = Availability.NoData ∧
    (UpdateTrafficData st values).2.m_coloring = [] ∧
    (UpdateTrafficData st values).2.m_keys = st.m_keys := by
  rw [UpdateTrafficData, if_pos h]
  exact ⟨rfl, rfl, rfl, rfl⟩

/-- Claim C4 witness: the spec's 3-keys / 2-values mismatch. -/
theorem C4_witness :
    (UpdateTrafficData sampleState3 [1, 2]).1 = false ∧
    (UpdateTrafficData sampleState3 [1, 2]).2.m_availability = Availability.NoData ∧
    (UpdateTrafficData sampleState3 [1, 2]).2.m_coloring = [] ∧
    (UpdateTrafficData sampleState3 [1, 2]).2.m_keys = sampleState3.m_keys :=
  C4_update_mismatch sampleState3 [1, 2] (by decide)

/-- Claim C6: for distinct fresh keys, `CombineColorings` produces a
coloring whose domain is exactly the fresh keys (size equals the key
count), each key mapped to its prior label when present in the known
coloring and to `Unknown` otherwise. -/
theorem C6_combine_colorings (keys : List RoadSegmentId) (known : Coloring)
    (h : keys.Nodup) :
    (CombineColorings keys known).length = keys.length ∧
    (∀ k ∈ keys, mapFind (CombineColorings keys known) k =
      some (match mapFind known k with
            | none => SpeedGroup.Unknown
            | some g => g)) ∧
    ∀ k, k ∉ keys → mapFind (CombineColorings keys known) k = none := by
  have hc : CombineColorings keys known = keys.map fun k =>
      (k, match mapFind known k with
          | none => SpeedGroup.Unknown
          | some g => g) := by
    rw [CombineColorings, combineLoop_spec known keys [] h (by intro k _; rfl)]
    simp
  rw [hc]
  refine ⟨by simp, ?_, ?_⟩
  · intro k hk
    exact mapFind_map_mem _ keys k hk
  · intro k hk
    exact mapFind_map_not_mem _ keys k hk

/-- Claim C6 witness: two distinct fresh keys against a known coloring
holding one of them. -/
theorem C6_witness :
    (CombineColorings [RoadSegmentId.mk 1 0 0, RoadSegmentId.mk 2 0 0]
      [(RoadSegmentId.mk 1 0 0, 3)]).length = 2 ∧
    mapFind (CombineColorings [RoadSegmentId.mk 1 0 0, RoadSegmentId.mk 2 0 0]
      [(RoadSegmentId.mk 1 0 0, 3)]) (RoadSegmentId.mk 1 0 0) = some 3 ∧
    mapFind (CombineColorings [RoadSegmentId.mk 1 0 0, RoadSegmentId.mk 2 0 0]
      [(RoadSegmentId.mk 1 0 0, 3)]) (RoadSegmentId.mk 2 0 0) =
      some SpeedGroup.Unknown ∧
    mapFind (CombineColorings [RoadSegmentId.mk 1 0 0, RoadSegmentId.mk 2 0 0]
      [(RoadSegmentId.mk 1 0 0, 3)]) (RoadSegmentId.mk 3 0 0) = none := by
  have h := C6_combine_colorings [RoadSegmentId.mk 1 0 0, RoadSegmentId.mk 2 0 0]
    [(RoadSegmentId.mk 1 0 0, 3)] (by decide)
  exact ⟨h.1, h.2.1 (RoadSegmentId.mk 1 0 0) (by decide),
    h.2.1 (RoadSegmentId.mk 2 0 0) (by decide), h.2.2 (RoadSegmentId.mk 3 0 0) (by decide)⟩

/-- Claim C7: `GetSpeedGroup` is a total pure function of the coloring
and the id: the stored group when the id is present, `Unknown` when it
is absent, with no state modified (it is `const` in the source and a
function here). -/
theorem C7_get_speed_group (coloring : Coloring) (id : RoadSegmentId) :
    GetSpeedGroup coloring id = (mapFind coloring id).getD SpeedGroup.Unknown := by
  rw [GetSpeedGroup]
  cases mapFind coloring id <;> rfl

/-- Claim C8: on a 304 response (with an mwm and a configured remote),
whatever the prior availability, `ReceiveTrafficValues` reports
`NotChanged`, sets availability to `IsAvailable`, leaves the coloring
and the etag untouched, and the enclosing `ReceiveTrafficData` returns
true. -/
theorem C8_not_modified (st : TrafficInfoState) (mwmVersion : Nat) (resp : HttpResponse)
    (etag : String) (h304 : resp.errorCode = 304) :
    (ReceiveTrafficValues st true mwmVersion false resp etag).status =
      ServerDataStatus.NotChanged ∧
    (ReceiveTrafficValues st true mwmVersion false resp etag).state.m_availability =
      Availability.IsAvailable ∧
    (ReceiveTrafficValues st true mwmVersion false resp etag).state.m_coloring =
      st.m_coloring ∧
    (ReceiveTrafficValues st true mwmVersion false resp etag).etag = etag ∧
    (ReceiveTrafficData st true mwmVersion false resp etag).ok = true ∧
    (ReceiveTrafficData st true mwmVersion false resp etag).state.m_coloring =
      st.m_coloring := by
  have hr : ReceiveTrafficValues st true mwmVersion false resp etag =
      ⟨ServerDataStatus.NotChanged,
        { st with m_availability := Availability.IsAvailable }, etag, []⟩ := by
    rw [ReceiveTrafficValues, if_neg (by simp), if_neg (by simp),
      if_pos (Or.inr (by rw [h304]; norm_num))]
    rw [ProcessFailure, if_neg (by rw [h304]; norm_num), if_pos h304]
  rw [ReceiveTrafficData, hr]
  exact ⟨rfl, rfl, rfl, rfl, rfl, rfl⟩

/-- Claim C8 witness: a concrete 304 from prior availability
`Unknown`. -/
theorem C8_witness :
    (ReceiveTrafficValues sampleState true 100 false ⟨true, 304, [], 0, []⟩
      kETag).status = ServerDataStatus.NotChanged ∧
    (ReceiveTrafficValues sampleState true 100 false ⟨true, 304, [], 0, []⟩
      kETag).state.m_availability = Availability.IsAvailable ∧
    (ReceiveTrafficValues sampleState true 100 false ⟨true, 304, [], 0, []⟩
      kETag).state.m_coloring = sampleState.m_coloring ∧
    (ReceiveTrafficValues sampleState true 100 false ⟨true, 304, [], 0, []⟩
      kETag).etag = kETag ∧
    (ReceiveTrafficData sampleState true 100 false ⟨true, 304, [], 0, []⟩
      kETag).ok = true ∧
    (ReceiveTrafficData sampleState true 100 false ⟨true, 304, [], 0, []⟩
      kETag).state.m_coloring = sampleState.m_coloring :=
  C8_not_modified sampleState 100 ⟨true, 304, [], 0, []⟩ kETag rfl

/-- Claim C9: `ReceiveTrafficKeys` never mutates availability on any
outcome, and whenever it fails (no mwm info, no configured remote, a
request that does not run, a non-200 status, or undecodable bytes) it
leaves the stored key list unchanged. -/
theorem C9_fetch_keys_frame (st : TrafficInfoState) (hasInfo urlEmpty : Bool)
    (resp : HttpResponse) :
    (ReceiveTrafficKeys st hasInfo urlEmpty resp).state.m_availability =
      st.m_availability ∧
    ((ReceiveTrafficKeys st hasInfo urlEmpty resp).ok = false →
      (ReceiveTrafficKeys st hasInfo urlEmpty resp).state.m_keys = st.m_keys) := by
  rw [ReceiveTrafficKeys]
  split_ifs <;> try exact ⟨rfl, fun _ => rfl⟩
  cases hk : DeserializeTrafficKeys resp.body with
  | none => exact ⟨rfl, fun _ => rfl⟩
  | some ks => exact ⟨rfl, fun hok => by simp at hok⟩

/-- Claim C9 witness: a failed request (transport error) leaves both
availability and the key list unchanged. -/
theorem C9_witness :
    (ReceiveTrafficKeys sampleState true false ⟨false, 0, [], 0, []⟩).state.m_availability =
      Availability.Unknown ∧
    (ReceiveTrafficKeys sampleState true false ⟨false, 0, [], 0, []⟩).state.m_keys = [] :=
  ⟨(C9_fetch_keys_frame sampleState true false ⟨false, 0, [], 0, []⟩).1,
   (C9_fetch_keys_frame sampleState true false ⟨false, 0, [], 0, []⟩).2 (by decide)⟩

/-- Claim C10: `ReceiveTrafficValues` overwrites the caller's etag only
when the request ran with status 200, the body decoded, and the headers
contain an entry named exactly `Etag`; on every other outcome the etag
is returned exactly as supplied. -/
theorem C10_etag_update (st : TrafficInfoState) (hasInfo : Bool) (mwmVersion : Nat)
    (urlEmpty : Bool) (resp : HttpResponse) (etag : String)
    (h : (ReceiveTrafficValues st hasInfo mwmVersion urlEmpty resp etag).etag ≠ etag) :
    hasInfo = true ∧ urlEmpty = false ∧ resp.success = true ∧ resp.errorCode = 200 ∧
    (DeserializeTrafficValues resp.body).isSome = true ∧
    (resp.headers.find? fun p => decide (p.1 = kETag)).isSome = true := by
  rw [ReceiveTrafficValues] at h
  by_cases h1 : hasInfo = false
  · rw [if_pos h1] at h
    simp at h
  · rw [if_neg h1] at h
    by_cases h2 : urlEmpty = true
    · rw [if_pos h2] at h
      simp at h
    · rw [if_neg h2] at h
      by_cases h3 : resp.success = false ∨ resp.errorCode ≠ 200
      · rw [if_pos h3] at h
        simp at h
      · rw [if_neg h3] at h
        push_neg at h3
        cases hd : DeserializeTrafficValues resp.body with
        | none =>
          rw [hd] at h
          simp at h
        | some vs =>
          rw [hd] at h
          cases hf : resp.headers.find? fun p => decide (p.1 = kETag) with
          | none =>
            rw [hf] at h
            simp at h
          | some p =>
            refine ⟨by simpa using h1, by simpa using h2, ?_, h3.2, by simp [hd],
              by simp [hf]⟩
            have := h3.1
            simpa using this

/-- Sample strings for the C10 witness. -/
def etagOld : String := "W1"

/-- The server's fresh etag value in the C10 witness. -/
def etagNew : String := "W2"

/-- Claim C10 witness: a successful 200 fetch with a decodable body and
an `Etag` header did overwrite the etag, and indeed all the conditions
hold. -/
theorem C10_witness :
    true = true ∧ false = false ∧ true = true ∧ (200 : Int) = 200 ∧
    (DeserializeTrafficValues [2, 0, 0]).isSome = true ∧
    (([(kETag, etagNew)] : List (String × String)).find? fun p =>
      decide (p.1 = kETag)).isSome = true :=
  C10_etag_update sampleState true 100 false ⟨true, 200, [2, 0, 0], 0, [(kETag, etagNew)]⟩
    etagOld (by decide)

end traffic

